import Mathlib

/-!
Verification of the grouping-and-batching engine of the cwatsch package
(src/metrics.go).

The Go source is shallowly embedded:

* `*cw.MetricDatum` pointers are modelled as values of `Option α` — `none`
  is the nil pointer (also the value of freshly allocated, not yet written
  slots of the backing slice of a queue).
* `queue` (src/metrics.go:137-143) with its `push`, `pop`, `top` methods
  (src/metrics.go:145-184) becomes the structure `Queue` below; the backing
  slice `nodes` is a `List (Option α)` of fixed length, indices are `Nat`
  with the same `% len(q.nodes)` arithmetic as the source.
* `Batch` (src/metrics.go:24-28) with its map `metricQs` becomes an
  association list from namespace strings to queues (Go map iteration
  order is arbitrary; all claims below are stated per group key and do not
  depend on the order chosen here).
* the `while` loops of `FlushCtx` / `FlushCompleteBatchesCtx` are embedded
  with fuel `q.count`, which is proved sufficient (each round removes at
  least one queued item).
* the `errgroup` fan-out (src/metrics.go:186-203) is modelled by running
  the dispatched sends in one admissible completion order, threading the
  cancellation state of the context derived by `errgroup.WithContext`:
  the first send returning a non-nil error cancels that context, and a
  send that runs with the context already cancelled observes the
  cancellation (this is how `PutMetricDataWithContext` behaves).
* the `select` loop of `NewTicker` (src/metrics.go:205-214) is embedded as
  a function consuming the sequence of select outcomes (timer fired /
  context done) and threading the state transformed by the callback.
-/

namespace Cwatsch

/-- const maxBatchSize = 20 (src/metrics.go:22). -/
def maxBatchSize : Nat := 20

/-- The ring buffer `queue` of src/metrics.go:137-143.  `nodes` is the
backing slice of pointers (entries are `Option α`, `none` = nil). -/
structure Queue (α : Type) where
  nodes : List (Option α)
  size : Nat
  head : Nat
  tail : Nat
  count : Nat
deriving Repr, DecidableEq

namespace Queue

variable {α : Type}

/-- queue.push (src/metrics.go:145-158).  When the buffer is full
(`head == tail && count > 0`) the backing storage is reallocated with
`size` extra slots and the two `copy` calls lay the elements out starting
at index 0 in logical order; then the element is written at `tail`. -/
def push (q : Queue α) (n : Option α) : Queue α :=
  let q :=
    if q.head = q.tail ∧ 0 < q.count then
      { q with
        nodes := q.nodes.drop q.head ++ q.nodes.take q.head
          ++ List.replicate q.size none
        head := 0
        tail := q.nodes.length }
    else q
  { q with
    nodes := q.nodes.set q.tail n
    tail := (q.tail + 1) % (q.nodes.set q.tail n).length
    count := q.count + 1 }

/-- queue.pop (src/metrics.go:160-170): returns nil on an empty queue,
otherwise the element at `head`, advancing `head` modulo the storage
length. -/
def pop (q : Queue α) : Option α × Queue α :=
  if q.count = 0 then (none, q)
  else
    (q.nodes.getD q.head none,
     { q with head := (q.head + 1) % q.nodes.length, count := q.count - 1 })

/-- Helper for `top`: pop `n` times, collecting the results in order. -/
def popN (q : Queue α) : Nat → List (Option α) × Queue α
  | 0 => ([], q)
  | n + 1 =>
    let p := q.pop
    let r := p.2.popN n
    (p.1 :: r.1, r.2)

/-- queue.top (src/metrics.go:172-184): remove and return the oldest
`min n count` elements in FIFO order. -/
def top (q : Queue α) (n : Nat) : List (Option α) × Queue α :=
  q.popN (min n q.count)

/-- The logical FIFO content of the ring buffer: the `count` entries
starting at `head`, wrapping modulo the storage length. -/
def toList (q : Queue α) : List (Option α) :=
  (List.range q.count).map fun i => q.nodes.getD ((q.head + i) % q.nodes.length) none

/-- Well-formedness of a queue as maintained by the source: non-empty
backing storage, `head` in range, at most `capacity` elements, `tail`
pointing one past the logical end, and the grow increment `size` equal to
`maxBatchSize` (the only value the source ever uses,
src/metrics.go:69-72). -/
structure WF (q : Queue α) : Prop where
  pos : 0 < q.nodes.length
  head_lt : q.head < q.nodes.length
  count_le : q.count ≤ q.nodes.length
  tail_eq : q.tail = (q.head + q.count) % q.nodes.length
  size_eq : q.size = maxBatchSize

instance (q : Queue α) : Decidable q.WF :=
  decidable_of_iff (0 < q.nodes.length ∧ q.head < q.nodes.length ∧
      q.count ≤ q.nodes.length ∧
      q.tail = (q.head + q.count) % q.nodes.length ∧
      q.size = maxBatchSize)
    ⟨fun h => ⟨h.1, h.2.1, h.2.2.1, h.2.2.2.1, h.2.2.2.2⟩,
     fun h => ⟨h.pos, h.head_lt, h.count_le, h.tail_eq, h.size_eq⟩⟩

/-- Fuel-bounded embedding of the loop
`for q.count > 0 { flush.do(ctx, ns, q.top(maxBatchSize)) }` of FlushCtx
(src/metrics.go:118-121), collecting the dispatched sub-batches in order.
Each round removes at least one item, so fuel `q.count` is sufficient. -/
def drainAux (fuel : Nat) (q : Queue α) : List (List (Option α)) :=
  match fuel with
  | 0 => []
  | fuel + 1 =>
    if 0 < q.count then
      (q.top maxBatchSize).1 :: drainAux fuel (q.top maxBatchSize).2
    else []

/-- The sub-batches dispatched for one queue by a full flush, in dispatch
order. -/
def drain (q : Queue α) : List (List (Option α)) := drainAux q.count q

/-- Fuel-bounded embedding of the loop
`for q.count >= maxBatchSize { flush.do(ctx, ns, q.top(maxBatchSize)) }`
of FlushCompleteBatchesCtx (src/metrics.go:93-97): the dispatched full
sub-batches and the queue left behind. -/
def drainFullAux (fuel : Nat) (q : Queue α) :
    List (List (Option α)) × Queue α :=
  match fuel with
  | 0 => ([], q)
  | fuel + 1 =>
    if maxBatchSize ≤ q.count then
      let p := q.top maxBatchSize
      let r := drainFullAux fuel p.2
      (p.1 :: r.1, r.2)
    else ([], q)

/-- The sub-batches dispatched for one queue by FlushCompleteBatchesCtx,
with the queue left in place. -/
def drainFull (q : Queue α) : List (List (Option α)) × Queue α :=
  drainFullAux q.count q

end Queue

/-- The part of cw.PutMetricDataInput the engine reads: the (possibly
nil) Namespace pointer and the slice of MetricDatum pointers. -/
structure PutMetricDataInput (α : Type) where
  Namespace : Option String
  MetricData : List (Option α)
deriving Repr, DecidableEq

/-- The empty cw.PutMetricDataOutput value returned by
Batch.PutMetricData (src/metrics.go:41). -/
structure PutMetricDataOutput where
deriving Repr, DecidableEq

/-- One dispatched send of a sub-batch, as performed by flush.do via
`cwAPI.PutMetricDataWithContext(ctx, ...)` inside an errgroup goroutine
(src/metrics.go:191-199): `out` is the error the request produces when
the errgroup-derived context is not cancelled at the time it runs;
`ctxErr` is the cancellation error it observes instead when that shared
context was already cancelled (the request is aborted). -/
structure Send (E : Type) where
  out : Option E
  ctxErr : E
deriving Repr, DecidableEq

/-- Execution of the goroutines registered in an `errgroup.Group` created
by `errgroup.WithContext`, in one admissible completion order (the list
order): the first goroutine returning a non-nil error cancels the derived
context, and every later send observes the cancellation
(src/metrics.go:114 and src/metrics.go:89). Returns each goroutine's
returned error in order. -/
def errgroupRunAux (c : Bool) : List (Send E) → List (Option E)
  | [] => []
  | s :: rest =>
    let r := if c then some s.ctxErr else s.out
    r :: errgroupRunAux (c || r.isSome) rest

def errgroupRun (sends : List (Send E)) : List (Option E) :=
  errgroupRunAux false sends

/-- errgroup.Group.Wait: block until all registered goroutines have
returned, and return the error of the first goroutine that failed (nil if
none failed) — src/metrics.go:201-203. -/
def errgroupWait (sends : List (Send E)) : Option E :=
  (errgroupRun sends).findSome? id

/-- The Batch of src/metrics.go:24-28: the map from namespace to queue,
embedded as an association list (Go map iteration order is arbitrary; the
claims below are stated per key and do not depend on the order). -/
structure Batch (α : Type) where
  metricQs : List (String × Queue α)
deriving Repr, DecidableEq

namespace Batch

variable {α E : Type}

/-- New (src/metrics.go:30-37): an empty group table. -/
def New : Batch α := ⟨[]⟩

/-- The fresh queue allocated on first Add to a namespace
(src/metrics.go:69-72): `maxBatchSize` nil slots, grow increment
`maxBatchSize`. -/
def emptyQueue : Queue α :=
  ⟨List.replicate maxBatchSize none, maxBatchSize, 0, 0, 0⟩

/-- Go map read `b.metricQs[ns]`. -/
def lookupNS (b : Batch α) (ns : String) : Option (Queue α) :=
  (b.metricQs.find? fun p => p.1 == ns).map Prod.snd

/-- Replacing the queue stored under an existing key. -/
def updateNS (l : List (String × Queue α)) (ns : String) (q : Queue α) :
    List (String × Queue α) :=
  l.map fun p => if p.1 == ns then (p.1, q) else p

/-- Batch.add (src/metrics.go:61-79): look up the queue for
`aws.StringValue(input.Namespace)` (creating a fresh one and inserting it
when the key is absent), then push every datum of the input in order. -/
def add (b : Batch α) (input : PutMetricDataInput α) : Batch α :=
  let ns := input.Namespace.getD ""
  match b.lookupNS ns with
  | some q => ⟨updateNS b.metricQs ns (input.MetricData.foldl Queue.push q)⟩
  | none => ⟨b.metricQs ++ [(ns, input.MetricData.foldl Queue.push emptyQueue)]⟩

/-- Batch.Add (src/metrics.go:44-51). -/
def Add (b : Batch α) (ns : String) (data : List (Option α)) : Batch α :=
  b.add ⟨some ns, data⟩

/-- Batch.AddInputs (src/metrics.go:53-59). -/
def AddInputs (b : Batch α) (inputs : List (PutMetricDataInput α)) : Batch α :=
  inputs.foldl add b

/-- Batch.PutMetricData (src/metrics.go:39-42): calls AddInputs with the
single input and returns a fresh empty output and a nil error; it touches
nothing but the group table. -/
def PutMetricData (b : Batch α) (input : PutMetricDataInput α) :
    Batch α × PutMetricDataOutput × Option E :=
  (b.AddInputs [input], ⟨⟩, none)

/-- The (namespace, sub-batch) pairs dispatched by FlushCtx
(src/metrics.go:117-121), in the order the embedded map iteration visits
the groups. -/
def flushDispatches (b : Batch α) : List (String × List (Option α)) :=
  b.metricQs.flatMap fun p => (p.2.drain).map fun batch => (p.1, batch)

/-- Batch.FlushCtx (src/metrics.go:108-124): snapshot the table and
replace it with a fresh empty map under the lock, then drain every queue
of the snapshot completely, dispatching each top(maxBatchSize) sub-batch
to a concurrent send, and wait for the errgroup.  Returns the new batch
state, the dispatched requests, and the aggregated error. -/
def FlushCtx (b : Batch α) (sender : String → List (Option α) → Send E) :
    Batch α × List (String × List (Option α)) × Option E :=
  let dispatches := b.flushDispatches
  (⟨[]⟩, dispatches, errgroupWait (dispatches.map fun d => sender d.1 d.2))

/-- The (namespace, sub-batch) pairs dispatched by
FlushCompleteBatchesCtx (src/metrics.go:93-97). -/
def completeDispatches (b : Batch α) : List (String × List (Option α)) :=
  b.metricQs.flatMap fun p => ((p.2.drainFull).1).map fun batch => (p.1, batch)

/-- Batch.FlushCompleteBatchesCtx (src/metrics.go:88-101): for every
group, repeatedly dispatch top(maxBatchSize) while the queue holds at
least maxBatchSize items; the queues stay in the table, drained in place,
and the errgroup is awaited.  Returns the new batch state, the dispatched
requests, and the aggregated error. -/
def FlushCompleteBatchesCtx (b : Batch α)
    (sender : String → List (Option α) → Send E) :
    Batch α × List (String × List (Option α)) × Option E :=
  let dispatches := b.completeDispatches
  (⟨b.metricQs.map fun p => (p.1, (p.2.drainFull).2)⟩, dispatches,
   errgroupWait (dispatches.map fun d => sender d.1 d.2))

/-- One tick of the background job launched by Batch.LaunchAutoFlush
(src/metrics.go:128-135): run FlushCtx, and when an error handler was
supplied (`onError != nil`), invoke it with the flush result — whatever
that result is.  Returns the new batch state and the list of arguments
the handler was invoked with. -/
def LaunchAutoFlushTick (b : Batch α)
    (sender : String → List (Option α) → Send E) (hasHandler : Bool) :
    Batch α × List (Option E) :=
  let r := b.FlushCtx sender
  (r.1, if hasHandler then [r.2.2] else [])

/-- Well-formedness of a batch: distinct keys (it embeds a Go map) and
well-formed queues. -/
structure WF (b : Batch α) : Prop where
  nodup : (b.metricQs.map Prod.fst).Nodup
  queues : ∀ p ∈ b.metricQs, p.2.WF

instance (b : Batch α) : Decidable b.WF :=
  decidable_of_iff ((b.metricQs.map Prod.fst).Nodup ∧ ∀ p ∈ b.metricQs, p.2.WF)
    ⟨fun h => ⟨h.1, h.2⟩, fun h => ⟨h.nodup, h.queues⟩⟩

/-- The queued content of one group. -/
def contents (b : Batch α) (ns : String) : List (Option α) :=
  match b.lookupNS ns with
  | some q => q.toList
  | none => []

end Batch

/-- aws.StringValue of the input's namespace: "" when nil. -/
def nsOf (input : PutMetricDataInput α) : String :=
  input.Namespace.getD ""

/-- The items carried by `inputs` for group `ns`, in insertion order. -/
def itemsFor (ns : String) (inputs : List (PutMetricDataInput α)) :
    List (Option α) :=
  (inputs.filter fun i => nsOf i == ns).flatMap fun i => i.MetricData

/-- One iteration outcome of the select loop of NewTicker
(src/metrics.go:205-214): either the interval timer fired or the context
was observed done. -/
inductive TickEvent where
  | tick : TickEvent
  | done : TickEvent
deriving Repr, DecidableEq

/-- Embedding of NewTicker's loop (src/metrics.go:205-214) over the
sequence of select outcomes: a timer event runs `fn` to completion
(threading the state — the next iteration starts only after `fn`
returned), a done event returns immediately.  Result: final state and the
number of `fn` invocations. -/
def NewTickerRun {σ : Type} (fn : σ → σ) : List TickEvent → σ → σ × Nat
  | [], s => (s, 0)
  | TickEvent.tick :: es, s =>
    let r := NewTickerRun fn es (fn s)
    (r.1, r.2 + 1)
  | TickEvent.done :: _, s => (s, 0)

/-- A sender whose requests always succeed (used as a concrete fixture
below). -/
def trivSender : String → List (Option Nat) → Send Unit := fun _ _ => ⟨none, ()⟩

/-- A batch holding 25 items under namespace "A" (one full sub-batch of
20 plus a remainder of 5; the queue grew once). -/
def sampleBatch : Batch Nat := Batch.New.Add "A" (List.replicate 25 (some 0))

/-- The queue sampleBatch holds under "A". -/
def sampleQueue : Queue Nat :=
  (sampleBatch.lookupNS "A").getD Batch.emptyQueue

/-- A queue filled to capacity (20 items in storage of 20 slots). -/
def fullQueue : Queue Nat :=
  (List.replicate 20 (some 0)).foldl Queue.push Batch.emptyQueue

/-- A batch holding 21 items under "A": a full flush dispatches two
sub-batches of sizes 20 and 1. -/
def twoBatch : Batch Nat := Batch.New.Add "A" (List.replicate 21 (some 0))

/-- A sender for which exactly the size-20 sub-batch fails intrinsically
(error 1), while any other request succeeds when its context is alive and
returns the cancellation error 2 when its context was already
cancelled. -/
def failFirstSender : String → List (Option Nat) → Send Nat :=
  fun _ batch => if batch.length == 20 then ⟨some 1, 0⟩ else ⟨none, 2⟩

namespace Queue

variable {α : Type}

@[simp] theorem toList_length (q : Queue α) : q.toList.length = q.count := by
  simp [toList]

theorem pop_count (q : Queue α) : (q.pop).2.count = q.count - 1 := by
  unfold pop
  split
  · next h => simp [h]
  · simp

theorem popN_count (q : Queue α) (n : Nat) : (q.popN n).2.count = q.count - n := by
  induction n generalizing q with
  | zero => simp [popN]
  | succ n ih => simp only [popN]; rw [ih, pop_count]; omega

theorem top_count (q : Queue α) (n : Nat) :
    (q.top n).2.count = q.count - min n q.count := by
  simp [top, popN_count]

/-- Cancellation fact for ring-buffer index arithmetic: two in-window
offsets that map to the same physical slot are equal. -/
theorem mod_add_cancel {L h i j : Nat} (hi : i < L) (hj : j < L)
    (heq : (h + i) % L = (h + j) % L) : i = j := by
  have h2 : i % L = j % L := Nat.ModEq.add_left_cancel' h heq
  rwa [Nat.mod_eq_of_lt hi, Nat.mod_eq_of_lt hj] at h2

/-- Reading the rotated list produced by the two copy calls of the grow
branch of push: element `i` of `l.drop h ++ l.take h` is element
`(h + i) % l.length` of `l`. -/
theorem getD_rotate (l : List (Option α)) (h i : Nat) (hh : h ≤ l.length)
    (hi : i < l.length) :
    (l.drop h ++ l.take h).getD i none = l.getD ((h + i) % l.length) none := by
  rcases Nat.lt_or_ge i (l.length - h) with hlt | hge
  · rw [List.getD_eq_getElem?_getD, List.getElem?_append_left (by simp; omega),
      List.getElem?_drop, ← List.getD_eq_getElem?_getD,
      Nat.mod_eq_of_lt (by omega)]
  · rw [List.getD_eq_getElem?_getD,
      List.getElem?_append_right (by simp; omega)]
    have hlen : (l.drop h).length = l.length - h := by simp
    rw [hlen]
    have h1 : i - (l.length - h) < h := by omega
    rw [List.getElem?_take, if_pos h1, ← List.getD_eq_getElem?_getD]
    have h2 : (h + i) % l.length = i - (l.length - h) := by
      have hle : l.length ≤ h + i := by omega
      rw [Nat.mod_eq_sub_mod hle, Nat.mod_eq_of_lt (by omega)]
      omega
    rw [h2]

/-- Index form of `toList`. -/
theorem toList_getElem? (q : Queue α) (i : Nat) :
    q.toList[i]? = if i < q.count then
      some (q.nodes.getD ((q.head + i) % q.nodes.length) none) else none := by
  by_cases h : i < q.count
  · rw [toList, List.getElem?_map, List.getElem?_range h]
    simp [h]
  · rw [toList, List.getElem?_map, List.getElem?_eq_none (by simp; omega)]
    simp [h]

/-- queue.push appends to the logical FIFO content and preserves
well-formedness; on a full buffer the backing storage grows by `size`
slots, otherwise it keeps its length (src/metrics.go:145-158). -/
theorem push_spec (q : Queue α) (x : Option α) (hq : q.WF) :
    (q.push x).WF ∧ (q.push x).toList = q.toList ++ [x] ∧
      (q.push x).count = q.count + 1 ∧
      (q.count = q.nodes.length →
        (q.push x).nodes.length = q.nodes.length + q.size) ∧
      (q.count < q.nodes.length →
        (q.push x).nodes.length = q.nodes.length) := by
  obtain ⟨hpos, hhead, hcle, htail, hsize⟩ := hq
  have hs20 : q.size = 20 := hsize
  by_cases hfull : q.head = q.tail ∧ 0 < q.count
  · -- grow branch: the buffer is full, so count = length
    have hcnt : q.count = q.nodes.length := by
      by_contra hne
      have hlt : q.count < q.nodes.length := by omega
      have heq : q.head = (q.head + q.count) % q.nodes.length := by
        rw [← htail, hfull.1]
      rcases Nat.lt_or_ge (q.head + q.count) q.nodes.length with hl | hg
      · rw [Nat.mod_eq_of_lt hl] at heq; omega
      · rw [Nat.mod_eq_sub_mod hg, Nat.mod_eq_of_lt (by omega)] at heq; omega
    set L := q.nodes.length with hL
    have hLpos : 0 < L := hpos
    set G : List (Option α) :=
      q.nodes.drop q.head ++ q.nodes.take q.head ++ List.replicate q.size none
      with hG
    have hGlen : G.length = L + q.size := by
      rw [hG]; simp; omega
    have hpush : q.push x =
        { q with
          nodes := G.set L x
          head := 0
          tail := (L + 1) % (L + q.size)
          count := q.count + 1 } := by
      have hsetlen : (G.set L x).length = L + q.size := by
        rw [List.length_set, hGlen]
      simp only [push, if_pos hfull, hsetlen]
    have hGget : ∀ i, i < L →
        G.getD i none = q.nodes.getD ((q.head + i) % L) none := by
      intro i hi
      have h1 : G.getD i none =
          (q.nodes.drop q.head ++ q.nodes.take q.head).getD i none := by
        rw [hG, List.getD_eq_getElem?_getD,
          List.getElem?_append_left (by simp; omega),
          ← List.getD_eq_getElem?_getD]
      rw [h1, getD_rotate q.nodes q.head i (Nat.le_of_lt hhead) hi]
    refine ⟨?_, ?_, ?_, ?_, ?_⟩
    · rw [hpush]
      refine ⟨?_, ?_, ?_, ?_, hsize⟩
      · simp only [List.length_set, hGlen]; omega
      · simp only [List.length_set, hGlen]; omega
      · simp only [List.length_set, hGlen]; omega
      · simp only [List.length_set, hGlen]
        rw [Nat.zero_add, hcnt]
    · rw [hpush]
      apply List.ext_getElem?
      intro i
      rw [toList_getElem?]
      simp only [List.length_set, hGlen]
      by_cases h1 : i < q.count
      · rw [if_pos (by omega)]
        have hiL : i < L := by omega
        have hidx : (0 + i) % (L + q.size) = i := by
          rw [Nat.zero_add, Nat.mod_eq_of_lt (by omega)]
        rw [hidx]
        have hset : (G.set L x).getD i none = G.getD i none := by
          rw [List.getD_eq_getElem?_getD, List.getElem?_set_ne (by omega),
            ← List.getD_eq_getElem?_getD]
        rw [hset, hGget i hiL,
          List.getElem?_append_left (by rw [toList_length]; omega),
          toList_getElem?, if_pos h1]
      · by_cases h2 : i = q.count
        · subst h2
          rw [if_pos (by omega)]
          have hidx : (0 + q.count) % (L + q.size) = L := by
            rw [Nat.zero_add, hcnt, Nat.mod_eq_of_lt (by omega)]
          rw [hidx]
          have hset : (G.set L x).getD L none = x := by
            rw [List.getD_eq_getElem?_getD,
              List.getElem?_set_self (by rw [hGlen]; omega)]
            rfl
          rw [hset, List.getElem?_append_right (toList_length q).le]
          simp
        · rw [if_neg (by omega), List.getElem?_eq_none (by simp; omega)]
    · rw [hpush]
    · intro _
      rw [hpush]
      simp only [List.length_set, hGlen, hL]
    · intro h; omega
  · -- no grow: the buffer still has room, so count < length
    have hclt : q.count < q.nodes.length := by
      by_contra hge
      have hcnt : q.count = q.nodes.length := by omega
      have h0 : 0 < q.count := by omega
      have hht : q.head = q.tail := by
        rw [htail, hcnt, Nat.add_mod_right, Nat.mod_eq_of_lt hhead]
      exact hfull ⟨hht, h0⟩
    set L := q.nodes.length with hL
    have htlt : q.tail < L := by
      rw [htail]; exact Nat.mod_lt _ hpos
    have hpush : q.push x =
        { q with
          nodes := q.nodes.set q.tail x
          tail := (q.tail + 1) % L
          count := q.count + 1 } := by
      simp only [push, if_neg hfull, List.length_set]
    refine ⟨?_, ?_, ?_, ?_, ?_⟩
    · rw [hpush]
      refine ⟨?_, ?_, ?_, ?_, hsize⟩
      · simp only [List.length_set]; omega
      · simp only [List.length_set]; omega
      · simp only [List.length_set]; omega
      · simp only [List.length_set, htail, Nat.mod_add_mod, ← hL]
        rw [Nat.add_assoc]
    · rw [hpush]
      apply List.ext_getElem?
      intro i
      rw [toList_getElem?]
      simp only [List.length_set]
      by_cases h1 : i < q.count
      · rw [if_pos (by omega)]
        have hne : q.tail ≠ (q.head + i) % L := by
          intro hcontra
          have : i = q.count :=
            mod_add_cancel (L := L) (by omega) (by omega)
              (by rw [← hcontra, htail])
          omega
        have hset : (q.nodes.set q.tail x).getD ((q.head + i) % L) none =
            q.nodes.getD ((q.head + i) % L) none := by
          rw [List.getD_eq_getElem?_getD, List.getElem?_set_ne hne,
            ← List.getD_eq_getElem?_getD]
        rw [hset, List.getElem?_append_left (by rw [toList_length]; omega),
          toList_getElem?, if_pos h1]
      · by_cases h2 : i = q.count
        · subst h2
          rw [if_pos (by omega)]
          have hidx : (q.head + q.count) % L = q.tail := htail.symm
          rw [hidx]
          have hset : (q.nodes.set q.tail x).getD q.tail none = x := by
            rw [List.getD_eq_getElem?_getD,
              List.getElem?_set_self (by omega)]
            rfl
          rw [hset, List.getElem?_append_right (toList_length q).le]
          simp
        · rw [if_neg (by omega), List.getElem?_eq_none (by simp; omega)]
    · rw [hpush]
    · intro h; omega
    · intro _
      rw [hpush]
      simp only [List.length_set]

/-- queue.pop removes the head of the logical FIFO content and preserves
well-formedness (src/metrics.go:160-170). -/
theorem pop_spec (q : Queue α) (hq : q.WF) (hc : 0 < q.count) :
    (q.pop).1 :: (q.pop).2.toList = q.toList ∧ (q.pop).2.WF := by
  obtain ⟨hpos, hhead, hcle, htail, hsize⟩ := hq
  have hne : ¬ q.count = 0 := by omega
  have hpop : q.pop = (q.nodes.getD q.head none,
      { q with head := (q.head + 1) % q.nodes.length, count := q.count - 1 }) := by
    simp only [pop, if_neg hne]
  constructor
  · rw [hpop]
    apply List.ext_getElem?
    intro i
    rw [toList_getElem?]
    match i with
    | 0 =>
      rw [if_pos hc]
      simp only [List.getElem?_cons_zero, Nat.add_zero,
        Nat.mod_eq_of_lt hhead]
    | i + 1 =>
      rw [List.getElem?_cons_succ, toList_getElem?]
      simp only
      by_cases h1 : i < q.count - 1
      · rw [if_pos h1, if_pos (by omega), Nat.mod_add_mod]
        have : q.head + 1 + i = q.head + (i + 1) := by omega
        rw [this]
      · rw [if_neg h1, if_neg (by omega)]
  · rw [hpop]
    refine ⟨hpos, Nat.mod_lt _ hpos, by dsimp only; omega, ?_, hsize⟩
    simp only [htail, Nat.mod_add_mod]
    have : q.head + 1 + (q.count - 1) = q.head + q.count := by omega
    rw [this]

/-- Popping `n ≤ count` elements takes the first `n` elements of the
logical content, in order, and leaves the rest. -/
theorem popN_spec (q : Queue α) (n : Nat) (hq : q.WF) (hn : n ≤ q.count) :
    (q.popN n).1 = q.toList.take n ∧ (q.popN n).2.toList = q.toList.drop n ∧
      (q.popN n).2.WF := by
  induction n generalizing q with
  | zero => exact ⟨rfl, by simp [popN], hq⟩
  | succ n ih =>
    have hc : 0 < q.count := by omega
    obtain ⟨hcons, hwf⟩ := pop_spec q hq hc
    have hcnt : (q.pop).2.count = q.count - 1 := pop_count q
    obtain ⟨h1, h2, h3⟩ := ih (q.pop).2 hwf (by omega)
    refine ⟨?_, ?_, ?_⟩
    · simp only [popN, h1, ← hcons, List.take_succ_cons]
    · simp only [popN, h2, ← hcons, List.drop_succ_cons]
    · simp only [popN, h3]

/-- queue.top takes the oldest `min n count` elements in FIFO order and
leaves the rest, preserving well-formedness (src/metrics.go:172-184). -/
theorem top_spec (q : Queue α) (n : Nat) (hq : q.WF) :
    (q.top n).1 = q.toList.take (min n q.count) ∧
      (q.top n).2.toList = q.toList.drop (min n q.count) ∧ (q.top n).2.WF := by
  exact popN_spec q (min n q.count) hq (Nat.min_le_right n q.count)

/-- The sizes of the sub-batches of a full drain of `n` items:
`n / 20` full batches of 20 followed by the remainder, if any. -/
theorem drainAux_spec (fuel : Nat) (q : Queue α) (hq : q.WF)
    (hfuel : q.count ≤ fuel) :
    (drainAux fuel q).flatten = q.toList ∧
      (drainAux fuel q).map List.length =
        List.replicate (q.count / maxBatchSize) maxBatchSize ++
          (if q.count % maxBatchSize = 0 then []
           else [q.count % maxBatchSize]) := by
  induction fuel generalizing q with
  | zero =>
    have hc : q.count = 0 := by omega
    refine ⟨?_, ?_⟩
    · simp [drainAux, Queue.toList, hc]
    · simp [drainAux, hc]
  | succ fuel ih =>
    by_cases h : 0 < q.count
    · obtain ⟨ht1, ht2, ht3⟩ := top_spec q maxBatchSize hq
      have htc : (q.top maxBatchSize).2.count =
          q.count - min maxBatchSize q.count := top_count q maxBatchSize
      obtain ⟨ih1, ih2⟩ := ih (q.top maxBatchSize).2 ht3 (by
        rw [htc]
        have : 0 < min maxBatchSize q.count := by
          simp [maxBatchSize]; omega
        omega)
      have hstep : drainAux (fuel + 1) q =
          (q.top maxBatchSize).1 :: drainAux fuel (q.top maxBatchSize).2 := by
        simp only [drainAux, if_pos h]
      refine ⟨?_, ?_⟩
      · rw [hstep, List.flatten_cons, ih1, ht1, ht2, List.take_append_drop]
      · rw [hstep, List.map_cons, ih2, ht1, htc]
        simp only [List.length_take, toList_length, maxBatchSize] at *
        rcases Nat.lt_or_ge q.count 20 with hlt | hge
        · have e1 : 20 ⊓ q.count ⊓ q.count = q.count := by omega
          have e2 : q.count - 20 ⊓ q.count = 0 := by omega
          rw [e1, e2]
          have h4 : q.count / 20 = 0 := by omega
          have h5 : q.count % 20 = q.count := by omega
          simp [h4, h5]
          rw [if_neg (by omega : ¬ q.count = 0)]
        · have e1 : 20 ⊓ q.count ⊓ q.count = 20 := by omega
          have e2 : q.count - 20 ⊓ q.count = q.count - 20 := by omega
          rw [e1, e2]
          have h4 : (q.count - 20) / 20 + 1 = q.count / 20 := by omega
          have h5 : (q.count - 20) % 20 = q.count % 20 := by omega
          rw [h5, ← h4, List.replicate_succ, List.cons_append]
    · have hc : q.count = 0 := by omega
      refine ⟨?_, ?_⟩
      · simp [drainAux, Queue.toList, hc, h]
      · simp [drainAux, hc, h]

theorem drain_spec (q : Queue α) (hq : q.WF) :
    (drain q).flatten = q.toList ∧
      (drain q).map List.length =
        List.replicate (q.count / maxBatchSize) maxBatchSize ++
          (if q.count % maxBatchSize = 0 then []
           else [q.count % maxBatchSize]) :=
  drainAux_spec q.count q hq (Nat.le_refl _)

theorem drainFullAux_spec (fuel : Nat) (q : Queue α) (hq : q.WF)
    (hfuel : q.count ≤ fuel) :
    (drainFullAux fuel q).1.flatten =
        q.toList.take (maxBatchSize * (q.count / maxBatchSize)) ∧
      (drainFullAux fuel q).1.map List.length =
        List.replicate (q.count / maxBatchSize) maxBatchSize ∧
      (drainFullAux fuel q).2.toList =
        q.toList.drop (maxBatchSize * (q.count / maxBatchSize)) ∧
      (drainFullAux fuel q).2.count = q.count % maxBatchSize ∧
      (drainFullAux fuel q).2.WF := by
  induction fuel generalizing q with
  | zero =>
    have hc : q.count = 0 := by omega
    refine ⟨?_, ?_, ?_, ?_, hq⟩
    · simp [drainFullAux, Queue.toList, hc]
    · simp [drainFullAux, hc, maxBatchSize]
    · simp [drainFullAux, hc, maxBatchSize]
    · simp [drainFullAux, hc, maxBatchSize]
  | succ fuel ih =>
    by_cases h : maxBatchSize ≤ q.count
    · obtain ⟨ht1, ht2, ht3⟩ := top_spec q maxBatchSize hq
      have htc : (q.top maxBatchSize).2.count =
          q.count - min maxBatchSize q.count := top_count q maxBatchSize
      have hmin : min maxBatchSize q.count = maxBatchSize := by
        simp only [maxBatchSize] at *; omega
      rw [hmin] at ht1 ht2 htc
      obtain ⟨ih1, ih2, ih3, ih4, ih5⟩ := ih (q.top maxBatchSize).2 ht3 (by
        rw [htc]; simp only [maxBatchSize]; omega)
      have hstep : drainFullAux (fuel + 1) q =
          ((q.top maxBatchSize).1 ::
              (drainFullAux fuel (q.top maxBatchSize).2).1,
            (drainFullAux fuel (q.top maxBatchSize).2).2) := by
        simp only [drainFullAux, if_pos h]
      have h20 : 20 ≤ q.count := by simpa only [maxBatchSize] using h
      refine ⟨?_, ?_, ?_, ?_, ?_⟩
      · rw [hstep]
        simp only [List.flatten_cons, ih1, ht1, ht2, htc]
        simp only [maxBatchSize]
        rw [← List.take_add]
        congr 1
        omega
      · rw [hstep]
        simp only [List.map_cons, ih2, ht1, htc, List.length_take,
          toList_length]
        simp only [maxBatchSize]
        have e1 : 20 ⊓ q.count = 20 := by omega
        rw [e1]
        have h4 : (q.count - 20) / 20 + 1 = q.count / 20 := by omega
        rw [← h4, List.replicate_succ]
      · rw [hstep]
        dsimp only
        rw [ih3, ht2, htc]
        simp only [maxBatchSize]
        rw [List.drop_drop]
        congr 1
        omega
      · rw [hstep]
        dsimp only
        rw [ih4, htc]
        simp only [maxBatchSize]
        omega
      · rw [hstep]
        exact ih5
    · have hstep : drainFullAux (fuel + 1) q = ([], q) := by
        simp only [drainFullAux, if_neg h]
      simp only [maxBatchSize] at h
      have hd0 : q.count / 20 = 0 := by omega
      have hm0 : q.count % 20 = q.count := by omega
      refine ⟨?_, ?_, ?_, ?_, ?_⟩
      · rw [hstep]; simp [maxBatchSize, hd0]
      · rw [hstep]; simp [maxBatchSize, hd0]
      · rw [hstep]; simp [maxBatchSize, hd0]
      · rw [hstep]; simp [maxBatchSize, hm0]
      · rw [hstep]; exact hq

theorem drainFull_spec (q : Queue α) (hq : q.WF) :
    (drainFull q).1.flatten =
        q.toList.take (maxBatchSize * (q.count / maxBatchSize)) ∧
      (drainFull q).1.map List.length =
        List.replicate (q.count / maxBatchSize) maxBatchSize ∧
      (drainFull q).2.toList =
        q.toList.drop (maxBatchSize * (q.count / maxBatchSize)) ∧
      (drainFull q).2.count = q.count % maxBatchSize ∧
      (drainFull q).2.WF :=
  drainFullAux_spec q.count q hq (Nat.le_refl _)


end Queue

namespace Batch

variable {α : Type}

theorem emptyQueue_wf : (emptyQueue : Queue α).WF := by
  refine ⟨?_, ?_, ?_, ?_, rfl⟩
  · simp [emptyQueue, maxBatchSize]
  · simp [emptyQueue, maxBatchSize]
  · simp [emptyQueue]
  · simp [emptyQueue]

theorem emptyQueue_toList : (emptyQueue : Queue α).toList = [] := by
  simp [emptyQueue, Queue.toList]

/-- Pushing a list of items appends it to the logical content. -/
theorem foldl_push_spec (q : Queue α) (xs : List (Option α)) (hq : q.WF) :
    (xs.foldl Queue.push q).WF ∧
      (xs.foldl Queue.push q).toList = q.toList ++ xs := by
  induction xs generalizing q with
  | nil => exact ⟨hq, by simp⟩
  | cons x xs ih =>
    obtain ⟨h1, h2, -, -, -⟩ := Queue.push_spec q x hq
    obtain ⟨ih1, ih2⟩ := ih (q.push x) h1
    refine ⟨ih1, ?_⟩
    rw [List.foldl_cons, ih2, h2, List.append_assoc, List.singleton_append]

theorem keys_updateNS (l : List (String × Queue α)) (ns : String)
    (q : Queue α) :
    (updateNS l ns q).map Prod.fst = l.map Prod.fst := by
  induction l with
  | nil => rfl
  | cons p l ih =>
    simp only [updateNS, List.map_cons] at *
    by_cases h : p.1 == ns
    · simp only [if_pos h, ih]
    · simp only [if_neg h, ih]

theorem find?_updateNS_self (l : List (String × Queue α)) (ns : String)
    (q : Queue α) (h : (l.find? fun p => p.1 == ns).isSome) :
    (updateNS l ns q).find? (fun p => p.1 == ns) = some (ns, q) := by
  induction l with
  | nil => simp at h
  | cons p l ih =>
    simp only [updateNS, List.map_cons]
    by_cases hp : p.1 == ns
    · have hns : p.1 = ns := by simpa using hp
      rw [if_pos hp]
      simp [List.find?_cons, hp, hns]
    · rw [if_neg hp]
      have h' : (List.find? (fun p => p.1 == ns) l).isSome := by
        simpa [List.find?_cons, hp] using h
      simpa [List.find?_cons, hp, updateNS] using ih h'

theorem find?_updateNS_ne (l : List (String × Queue α)) (ns ns' : String)
    (q : Queue α) (hne : ns' ≠ ns) :
    (updateNS l ns q).find? (fun p => p.1 == ns') =
      l.find? (fun p => p.1 == ns') := by
  induction l with
  | nil => rfl
  | cons p l ih =>
    simp only [updateNS, List.map_cons]
    by_cases hp : p.1 == ns
    · have hns : p.1 = ns := by simpa using hp
      have hp' : (p.1 == ns') = false := by
        simp only [beq_eq_false_iff_ne, ne_eq, hns]
        exact fun hh => hne hh.symm
      rw [if_pos hp]
      simpa [List.find?_cons, hp', updateNS] using ih
    · rw [if_neg hp]
      by_cases hp' : p.1 == ns'
      · simp [List.find?_cons, hp']
      · simpa [List.find?_cons, hp', updateNS] using ih

theorem not_mem_keys_of_find?_none (l : List (String × Queue α))
    (ns : String) (h : l.find? (fun p => p.1 == ns) = none) :
    ns ∉ l.map Prod.fst := by
  rw [List.find?_eq_none] at h
  intro hmem
  obtain ⟨p, hp, hfst⟩ := List.mem_map.mp hmem
  exact h p hp (by simp [hfst])

theorem contents_of_lookup_some {b : Batch α} {ns : String} {q : Queue α}
    (h : b.lookupNS ns = some q) : b.contents ns = q.toList := by
  unfold contents
  rw [h]

theorem contents_of_lookup_none {b : Batch α} {ns : String}
    (h : b.lookupNS ns = none) : b.contents ns = [] := by
  unfold contents
  rw [h]

theorem lookupNS_update_self (b : Batch α) (ns : String) (q : Queue α)
    (h : (b.metricQs.find? fun p => p.1 == ns).isSome) :
    (Batch.mk (updateNS b.metricQs ns q)).lookupNS ns = some q := by
  unfold lookupNS
  rw [find?_updateNS_self _ _ _ h]
  rfl

theorem lookupNS_update_ne (b : Batch α) (ns ns' : String) (q : Queue α)
    (hne : ns' ≠ ns) :
    (Batch.mk (updateNS b.metricQs ns q)).lookupNS ns' = b.lookupNS ns' := by
  unfold lookupNS
  rw [find?_updateNS_ne _ _ _ _ hne]

/-- Batch.add preserves well-formedness and appends the input's data to
the content of its namespace group, leaving every other group unchanged
(src/metrics.go:61-79). -/
theorem add_spec (b : Batch α) (input : PutMetricDataInput α) (hb : b.WF) :
    (b.add input).WF ∧
      ∀ ns, (b.add input).contents ns =
        b.contents ns ++ (if nsOf input = ns then input.MetricData else []) := by
  obtain ⟨hnd, hqs⟩ := hb
  have hns0 : nsOf input = input.Namespace.getD "" := rfl
  match hfind : b.lookupNS (input.Namespace.getD "") with
  | some q =>
    obtain ⟨p0, hp0, hp0q⟩ :
        ∃ p0, b.metricQs.find? (fun p => p.1 == input.Namespace.getD "") =
          some p0 ∧ p0.2 = q := by
      unfold lookupNS at hfind
      match hf : b.metricQs.find? (fun p => p.1 == input.Namespace.getD "") with
      | some p0 => exact ⟨p0, hf, by rw [hf] at hfind; simpa using hfind⟩
      | none => rw [hf] at hfind; simp at hfind
    have hqwf : q.WF := by
      rw [← hp0q]
      exact hqs p0 (List.mem_of_find?_eq_some hp0)
    obtain ⟨hpwf, hptl⟩ :=
      foldl_push_spec q input.MetricData hqwf
    have hadd : b.add input =
        ⟨updateNS b.metricQs (input.Namespace.getD "")
          (input.MetricData.foldl Queue.push q)⟩ := by
      simp only [add]
      rw [hfind]
    constructor
    · rw [hadd]
      refine ⟨?_, ?_⟩
      · rw [keys_updateNS]
        exact hnd
      · intro p hp
        obtain ⟨p1, hp1, hp1e⟩ := List.mem_map.mp hp
        by_cases h1 : p1.1 == input.Namespace.getD ""
        · rw [if_pos h1] at hp1e
          rw [← hp1e]
          exact hpwf
        · rw [if_neg h1] at hp1e
          rw [← hp1e]
          exact hqs p1 hp1
    · intro ns
      by_cases hcase : input.Namespace.getD "" = ns
      · subst hcase
        rw [if_pos hns0, hadd,
          contents_of_lookup_some
            (lookupNS_update_self b _ _ (by rw [hp0]; rfl)),
          contents_of_lookup_some hfind, hptl]
      · rw [if_neg (by rw [hns0]; exact hcase), List.append_nil, hadd]
        unfold contents
        rw [lookupNS_update_ne b _ ns _ (fun hh => hcase hh.symm)]
  | none =>
    have hfq : b.metricQs.find? (fun p => p.1 == input.Namespace.getD "") =
        none := by
      unfold lookupNS at hfind
      match hf : b.metricQs.find? (fun p => p.1 == input.Namespace.getD "") with
      | some p0 => rw [hf] at hfind; simp at hfind
      | none => exact hf
    have hnotin : input.Namespace.getD "" ∉ b.metricQs.map Prod.fst :=
      not_mem_keys_of_find?_none _ _ hfq
    obtain ⟨hpwf, hptl⟩ :=
      foldl_push_spec emptyQueue input.MetricData emptyQueue_wf
    have hadd : b.add input =
        ⟨b.metricQs ++ [(input.Namespace.getD "",
          input.MetricData.foldl Queue.push emptyQueue)]⟩ := by
      simp only [add]
      rw [hfind]
    constructor
    · rw [hadd]
      refine ⟨?_, ?_⟩
      · simp only [List.map_append, List.map_cons, List.map_nil]
        refine hnd.append (List.nodup_singleton _) ?_
        intro a ha hb'
        simp only [List.mem_singleton] at hb'
        subst hb'
        exact hnotin ha
      · intro p hp
        rcases List.mem_append.mp hp with h1 | h1
        · exact hqs p h1
        · simp only [List.mem_singleton] at h1
          subst h1
          exact hpwf
    · intro ns
      by_cases hcase : input.Namespace.getD "" = ns
      · subst hcase
        have hlook : (Batch.mk (b.metricQs ++
            [(input.Namespace.getD "",
              input.MetricData.foldl Queue.push emptyQueue)])).lookupNS
            (input.Namespace.getD "") =
            some (input.MetricData.foldl Queue.push emptyQueue) := by
          unfold lookupNS
          rw [List.find?_append, hfq, Option.none_or]
          simp [List.find?_cons]
        rw [if_pos hns0, hadd, contents_of_lookup_some hlook,
          contents_of_lookup_none hfind, hptl, emptyQueue_toList]
      · have hbeq : (input.Namespace.getD "" == ns) = false := by
          simp only [beq_eq_false_iff_ne, ne_eq]
          exact hcase
        have hlook : (Batch.mk (b.metricQs ++
            [(input.Namespace.getD "",
              input.MetricData.foldl Queue.push emptyQueue)])).lookupNS ns =
            b.lookupNS ns := by
          unfold lookupNS
          rw [List.find?_append]
          simp [List.find?_cons, hbeq]
        rw [if_neg (by rw [hns0]; exact hcase), List.append_nil, hadd]
        unfold contents
        rw [hlook]

/-- Batch.New is well-formed and empty. -/
theorem New_wf : (New : Batch α).WF := ⟨by simp [New], by simp [New]⟩

theorem New_contents (ns : String) : (New : Batch α).contents ns = [] := rfl

theorem itemsFor_cons (ns : String) (i : PutMetricDataInput α)
    (inputs : List (PutMetricDataInput α)) :
    itemsFor ns (i :: inputs) =
      (if nsOf i = ns then i.MetricData else []) ++ itemsFor ns inputs := by
  simp only [itemsFor, List.filter_cons]
  by_cases h : nsOf i = ns
  · simp [h]
  · simp [h]

/-- Batch.AddInputs appends, group by group, exactly the items its inputs
carry for that group, in order (src/metrics.go:53-59). -/
theorem AddInputs_spec (b : Batch α) (inputs : List (PutMetricDataInput α))
    (hb : b.WF) :
    (b.AddInputs inputs).WF ∧
      ∀ ns, (b.AddInputs inputs).contents ns =
        b.contents ns ++ itemsFor ns inputs := by
  induction inputs generalizing b with
  | nil => exact ⟨hb, by simp [AddInputs, itemsFor]⟩
  | cons i inputs ih =>
    obtain ⟨h1, h2⟩ := add_spec b i hb
    obtain ⟨ih1, ih2⟩ := ih (b.add i) h1
    have hstep : b.AddInputs (i :: inputs) = (b.add i).AddInputs inputs := rfl
    refine ⟨by rw [hstep]; exact ih1, fun ns => ?_⟩
    rw [hstep, ih2 ns, h2 ns, itemsFor_cons, List.append_assoc]

theorem filter_key_flatMap_none (l : List (String × Queue α))
    (f : String × Queue α → List (List (Option α))) (ns : String)
    (hns : ∀ p ∈ l, p.1 ≠ ns) :
    (l.flatMap fun p => (f p).map fun batch => (p.1, batch)).filter
      (fun d => d.1 == ns) = [] := by
  rw [List.filter_eq_nil_iff]
  intro d hd
  obtain ⟨p, hp, hdm⟩ := List.mem_flatMap.mp hd
  obtain ⟨batch, hbatch, heq⟩ := List.mem_map.mp hdm
  subst heq
  simpa using hns p hp

/-- Extracting the sub-batches dispatched for one key from the whole
dispatch list: with distinct keys they are exactly the batches produced
for that key's queue. -/
theorem filter_key_flatMap (l : List (String × Queue α))
    (f : String × Queue α → List (List (Option α))) (ns : String)
    (hnd : (l.map Prod.fst).Nodup) :
    ((l.flatMap fun p => (f p).map fun batch => (p.1, batch)).filter
        (fun d => d.1 == ns)).map Prod.snd =
      match l.find? (fun p => p.1 == ns) with
      | some p => f p
      | none => [] := by
  induction l with
  | nil => rfl
  | cons p l ih =>
    rw [List.map_cons, List.nodup_cons] at hnd
    obtain ⟨hnotin, hndtail⟩ := hnd
    rw [List.flatMap_cons, List.filter_append, List.map_append]
    by_cases hp : p.1 == ns
    · have hns : p.1 = ns := by simpa using hp
      have h1 : (((f p).map fun batch => (p.1, batch)).filter
          fun d => d.1 == ns) = (f p).map fun batch => (p.1, batch) := by
        rw [List.filter_eq_self]
        intro a ha
        obtain ⟨batch, hbatch, heq⟩ := List.mem_map.mp ha
        subst heq
        exact hp
      have h2 : ((l.flatMap fun p => (f p).map fun batch =>
          (p.1, batch)).filter fun d => d.1 == ns) = [] := by
        apply filter_key_flatMap_none
        intro p' hp' hc
        have : p.1 ∈ l.map Prod.fst := by
          rw [hns, ← hc]
          exact List.mem_map_of_mem _ hp'
        exact hnotin this
      rw [h1, h2, List.map_nil, List.append_nil]
      simp [List.find?_cons, hp, List.map_map]
    · have h1 : (((f p).map fun batch => (p.1, batch)).filter
          fun d => d.1 == ns) = [] := by
        rw [List.filter_eq_nil_iff]
        intro a ha
        obtain ⟨batch, hbatch, heq⟩ := List.mem_map.mp ha
        subst heq
        simpa using hp
      rw [h1, List.map_nil, List.nil_append, ih hndtail]
      simp [List.find?_cons, hp]

/-- Per-group view of the dispatches of FlushCtx: the sub-batches carrying
key `ns` are exactly the full drain of that group's queue. -/
theorem flushDispatches_filter (b : Batch α) (hb : b.WF) (ns : String) :
    ((b.flushDispatches).filter (fun d => d.1 == ns)).map Prod.snd =
      match b.lookupNS ns with
      | some q => q.drain
      | none => [] := by
  have h := filter_key_flatMap b.metricQs (fun p => p.2.drain) ns hb.nodup
  unfold flushDispatches
  rw [h]
  unfold lookupNS
  cases hf : b.metricQs.find? (fun p => p.1 == ns) with
  | none => rfl
  | some p => rfl

/-- Per-group view of the dispatches of FlushCompleteBatchesCtx. -/
theorem completeDispatches_filter (b : Batch α) (hb : b.WF) (ns : String) :
    ((b.completeDispatches).filter (fun d => d.1 == ns)).map Prod.snd =
      match b.lookupNS ns with
      | some q => (q.drainFull).1
      | none => [] := by
  have h := filter_key_flatMap b.metricQs (fun p => (p.2.drainFull).1) ns
    hb.nodup
  unfold completeDispatches
  rw [h]
  unfold lookupNS
  cases hf : b.metricQs.find? (fun p => p.1 == ns) with
  | none => rfl
  | some p => rfl

theorem find?_map_pair (l : List (String × Queue α)) (g : Queue α → Queue α)
    (ns : String) :
    (l.map fun p => (p.1, g p.2)).find? (fun d => d.1 == ns) =
      (l.find? fun p => p.1 == ns).map fun p => (p.1, g p.2) := by
  induction l with
  | nil => rfl
  | cons p l ih =>
    by_cases hp : p.1 == ns
    · simp [List.find?_cons, hp]
    · simp [List.find?_cons, hp, ih]

/-- After FlushCompleteBatchesCtx, every key is still present and maps to
its queue drained in place. -/
theorem lookupNS_mapDrainFull (b : Batch α) (ns : String) :
    (Batch.mk (b.metricQs.map fun p => (p.1, (p.2.drainFull).2))).lookupNS ns
      = (b.lookupNS ns).map fun q => (q.drainFull).2 := by
  unfold lookupNS
  dsimp only
  rw [find?_map_pair b.metricQs (fun q => (q.drainFull).2) ns]
  cases hf : b.metricQs.find? (fun p => p.1 == ns) with
  | none => rfl
  | some p => rfl

end Batch

/-- errgroup.Wait joins every goroutine: the run produces one result per
registered send. -/
theorem errgroupRunAux_length {E : Type} (c : Bool) (sends : List (Send E)) :
    (errgroupRunAux c sends).length = sends.length := by
  induction sends generalizing c with
  | nil => rfl
  | cons s rest ih => simp [errgroupRunAux, ih]

theorem errgroupRun_length {E : Type} (sends : List (Send E)) :
    (errgroupRun sends).length = sends.length :=
  errgroupRunAux_length false sends

/-- The aggregated errgroup result is nil exactly when every goroutine
returned nil. -/
theorem errgroupWait_eq_none_iff {E : Type} (sends : List (Send E)) :
    errgroupWait sends = none ↔ ∀ r ∈ errgroupRun sends, r = none := by
  unfold errgroupWait
  simp

/-- If every goroutine of the run returned nil, no send failed
intrinsically. -/
theorem errgroupRun_all_none {E : Type} (sends : List (Send E))
    (h : ∀ r ∈ errgroupRun sends, r = none) : ∀ s ∈ sends, s.out = none := by
  induction sends with
  | nil => intro s hs; simp at hs
  | cons s rest ih =>
    have hout : s.out = none := by
      apply h
      simp [errgroupRun, errgroupRunAux]
    have hrw : errgroupRun (s :: rest) = s.out :: errgroupRun rest := by
      simp [errgroupRun, errgroupRunAux, hout]
    intro s' hs'
    rcases List.mem_cons.mp hs' with he | hmem
    · rw [he]; exact hout
    · exact ih (fun r hr => h r (by rw [hrw]; exact List.mem_cons_of_mem _ hr))
        s' hmem

/-- A key found in the table of a well-formed batch holds a well-formed
queue. -/
theorem Batch.wf_of_lookup {α : Type} {b : Batch α} {ns : String}
    {q : Queue α} (hb : b.WF) (hq : b.lookupNS ns = some q) : q.WF := by
  unfold Batch.lookupNS at hq
  match hf : b.metricQs.find? (fun p => p.1 == ns) with
  | some p =>
    rw [hf] at hq
    simp at hq
    exact hq ▸ hb.queues p (List.mem_of_find?_eq_some hf)
  | none => rw [hf] at hq; simp at hq

/-- Shared core of C2 and C6: starting from an empty table, adding any
sequence of inputs and then flushing dispatches, for every group,
sub-batches whose concatenation is exactly the items added for that
group, in order. -/
theorem flush_concat_eq_itemsFor {α E : Type}
    (inputs : List (PutMetricDataInput α))
    (sender : String → List (Option α) → Send E) (ns : String) :
    (((((Batch.New.AddInputs inputs).FlushCtx sender).2.1).filter
        fun d => d.1 == ns).map Prod.snd).flatten = itemsFor ns inputs := by
  obtain ⟨hwf, hcont⟩ := Batch.AddInputs_spec Batch.New inputs Batch.New_wf
  have hfil := Batch.flushDispatches_filter _ hwf ns
  have hd : ((Batch.New.AddInputs inputs).FlushCtx sender).2.1 =
      (Batch.New.AddInputs inputs).flushDispatches := rfl
  rw [hd, hfil]
  cases hl : (Batch.New.AddInputs inputs).lookupNS ns with
  | some q =>
    have hqwf := Batch.wf_of_lookup hwf hl
    obtain ⟨hflat, -⟩ := Queue.drain_spec q hqwf
    have hc := hcont ns
    rw [Batch.contents_of_lookup_some hl, Batch.New_contents,
      List.nil_append] at hc
    show (q.drain).flatten = itemsFor ns inputs
    rw [hflat, hc]
  | none =>
    have hc := hcont ns
    rw [Batch.contents_of_lookup_none hl, Batch.New_contents,
      List.nil_append] at hc
    show ([] : List (List (Option α))).flatten = itemsFor ns inputs
    rw [← hc]
    rfl

/-- C1: for every group that holds `N ≥ 1` queued items when Flush is
called (sequential model, no concurrent Adds), FlushCtx dispatches
exactly `ceil(N / 20)` send requests for that group, and their sizes are
`N / 20` sub-batches of exactly 20 items followed — when `N % 20 ≠ 0` —
by one final sub-batch of the remaining `N % 20` (between 1 and 19)
items. -/
theorem C1_flush_dispatch_sizes {α E : Type} (b : Batch α)
    (sender : String → List (Option α) → Send E) (ns : String) (q : Queue α)
    (hb : b.WF) (hq : b.lookupNS ns = some q) (_hN : 0 < q.count) :
    ((((b.FlushCtx sender).2.1).filter fun d => d.1 == ns).map
        Prod.snd).length = (q.count + (maxBatchSize - 1)) / maxBatchSize ∧
      ((((b.FlushCtx sender).2.1).filter fun d => d.1 == ns).map
          Prod.snd).map List.length =
        List.replicate (q.count / maxBatchSize) maxBatchSize ++
          (if q.count % maxBatchSize = 0 then []
           else [q.count % maxBatchSize]) := by
  have hqwf := Batch.wf_of_lookup hb hq
  obtain ⟨hflat, hsizes⟩ := Queue.drain_spec q hqwf
  have hd : (b.FlushCtx sender).2.1 = b.flushDispatches := rfl
  have hfil2 : (((b.flushDispatches).filter fun d => d.1 == ns).map
      Prod.snd) = q.drain := by
    rw [Batch.flushDispatches_filter b hb ns, hq]
  constructor
  · rw [hd, hfil2]
    have h1 : ((q.drain).map List.length).length = (q.drain).length :=
      List.length_map _ _
    rw [hsizes] at h1
    simp only [List.length_append, List.length_replicate, maxBatchSize] at h1 ⊢
    by_cases hz : q.count % 20 = 0
    · rw [if_pos hz] at h1
      simp only [List.length_nil] at h1
      omega
    · rw [if_neg hz] at h1
      simp only [List.length_cons, List.length_nil] at h1
      omega
  · rw [hd, hfil2, hsizes]

/-- C1 witness: 25 items queued under "A" give ceil(25/20) = 2
sub-batches of sizes [20, 5]. -/
theorem C1_witness :
    (sampleBatch.WF ∧ sampleBatch.lookupNS "A" = some sampleQueue ∧
        0 < sampleQueue.count) ∧
      ((((sampleBatch.FlushCtx trivSender).2.1).filter
          fun d => d.1 == "A").map Prod.snd).length =
        (sampleQueue.count + (maxBatchSize - 1)) / maxBatchSize ∧
      ((((sampleBatch.FlushCtx trivSender).2.1).filter
            fun d => d.1 == "A").map Prod.snd).map List.length =
        List.replicate (sampleQueue.count / maxBatchSize) maxBatchSize ++
          (if sampleQueue.count % maxBatchSize = 0 then []
           else [sampleQueue.count % maxBatchSize]) :=
  ⟨⟨by decide, by decide, by decide⟩,
   C1_flush_dispatch_sizes sampleBatch trivSender "A" sampleQueue
     (by decide) (by decide) (by decide)⟩

/-- C2: for every group, concatenating the sub-batches a full Flush
dispatches for that group, in dispatch order, yields exactly the items
added to that group, in insertion order (FIFO) — including when the ring
buffer grew during the adds. -/
theorem C2_fifo_concat {α E : Type} (inputs : List (PutMetricDataInput α))
    (sender : String → List (Option α) → Send E) (ns : String) :
    (((((Batch.New.AddInputs inputs).FlushCtx sender).2.1).filter
        fun d => d.1 == ns).map Prod.snd).flatten = itemsFor ns inputs :=
  flush_concat_eq_itemsFor inputs sender ns

/-- C3 counterexample: the claim that when exactly one of the dispatched
sends fails the other sends run to completion unaffected (no sibling is
cancelled) is false: FlushCtx passes the errgroup-derived context to
every send (src/metrics.go:114,119,193), so the first failure cancels
that context and a sibling send that runs afterwards observes the
cancellation instead of its own outcome.  Concretely, with 21 items one
flush dispatches sub-batches of sizes 20 and 1; the size-20 send fails
intrinsically (error 1) and the second send then aborts with the
cancellation error 2 instead of succeeding. -/
theorem C3_counterexample :
    ¬ (∀ (b : Batch Nat) (sender : String → List (Option Nat) → Send Nat),
        ((((b.FlushCtx sender).2.1).map fun d => sender d.1 d.2).countP
          fun s => s.out.isSome) = 1 →
        errgroupRun (((b.FlushCtx sender).2.1).map fun d => sender d.1 d.2) =
          (((b.FlushCtx sender).2.1).map fun d => sender d.1 d.2).map
            fun s => s.out) := by
  intro h
  exact absurd (h twoBatch failFirstSender (by decide)) (by decide)

/-- C3 (amended): when at least one dispatched send fails intrinsically,
the flush still joins every dispatched goroutine (one result per
dispatch), the aggregated flush result is a failure, and no items are
re-queued (the resulting table is the fresh empty table regardless of
send outcomes); however sibling sends are not guaranteed to run
unaffected, because the first failure cancels the errgroup-derived
context they all share. -/
theorem C3_amended_failures {α E : Type} (b : Batch α)
    (sender : String → List (Option α) → Send E)
    (h : ∃ d ∈ (b.FlushCtx sender).2.1, (sender d.1 d.2).out.isSome) :
    (b.FlushCtx sender).2.2 ≠ none ∧
    (errgroupRun (((b.FlushCtx sender).2.1).map
        fun d => sender d.1 d.2)).length = ((b.FlushCtx sender).2.1).length ∧
    (b.FlushCtx sender).1 = Batch.New := by
  refine ⟨?_, (errgroupRun_length _).trans (List.length_map _ _), rfl⟩
  intro hnone
  have h1 : (b.FlushCtx sender).2.2 =
      errgroupWait (((b.FlushCtx sender).2.1).map fun d => sender d.1 d.2) :=
    rfl
  rw [h1, errgroupWait_eq_none_iff] at hnone
  have hall := errgroupRun_all_none _ hnone
  obtain ⟨d, hd, hout⟩ := h
  have hno : (sender d.1 d.2).out = none :=
    hall _ (List.mem_map_of_mem _ hd)
  rw [hno] at hout
  simp at hout

/-- C3 witness: the 21-item flush with the failing size-20 send. -/
theorem C3_amended_witness :
    (∃ d ∈ (twoBatch.FlushCtx failFirstSender).2.1,
        (failFirstSender d.1 d.2).out.isSome) ∧
      (twoBatch.FlushCtx failFirstSender).2.2 ≠ none ∧
      (errgroupRun (((twoBatch.FlushCtx failFirstSender).2.1).map
          fun d => failFirstSender d.1 d.2)).length
        = ((twoBatch.FlushCtx failFirstSender).2.1).length ∧
      (twoBatch.FlushCtx failFirstSender).1 = Batch.New :=
  ⟨by decide, C3_amended_failures twoBatch failFirstSender (by decide)⟩

/-- C4: the aggregated result of FlushCtx / FlushCompleteBatchesCtx is
nil exactly when every dispatched send returned nil; whenever at least
one send returns non-nil the flush result is non-nil; and the errgroup
is fully joined — the run produces one result per dispatched send. -/
theorem C4_error_aggregation {α E : Type} (b : Batch α)
    (sender : String → List (Option α) → Send E) :
    ((b.FlushCtx sender).2.2 = none ↔
      ∀ r ∈ errgroupRun (((b.FlushCtx sender).2.1).map
        fun d => sender d.1 d.2), r = none) ∧
    (errgroupRun (((b.FlushCtx sender).2.1).map
        fun d => sender d.1 d.2)).length = ((b.FlushCtx sender).2.1).length ∧
    ((b.FlushCompleteBatchesCtx sender).2.2 = none ↔
      ∀ r ∈ errgroupRun (((b.FlushCompleteBatchesCtx sender).2.1).map
        fun d => sender d.1 d.2), r = none) ∧
    (errgroupRun (((b.FlushCompleteBatchesCtx sender).2.1).map
        fun d => sender d.1 d.2)).length
      = ((b.FlushCompleteBatchesCtx sender).2.1).length := by
  have h1 : (b.FlushCtx sender).2.2 =
      errgroupWait (((b.FlushCtx sender).2.1).map fun d => sender d.1 d.2) :=
    rfl
  have h2 : (b.FlushCompleteBatchesCtx sender).2.2 =
      errgroupWait (((b.FlushCompleteBatchesCtx sender).2.1).map
        fun d => sender d.1 d.2) := rfl
  refine ⟨?_, (errgroupRun_length _).trans (List.length_map _ _),
    ?_, (errgroupRun_length _).trans (List.length_map _ _)⟩
  · rw [h1]
    exact errgroupWait_eq_none_iff _
  · rw [h2]
    exact errgroupWait_eq_none_iff _

/-- C5: FlushCompleteBatchesCtx dispatches for a group holding `N` items
exactly `N / 20` sub-batches, every one of exactly 20 items (never a
smaller one), leaves the remaining `N % 20` oldest-removed items queued
in the same queue (the drained tail of the FIFO content), and does not
remove the group's key from the table. -/
theorem C5_flush_if_filled {α E : Type} (b : Batch α)
    (sender : String → List (Option α) → Send E) (ns : String) (q : Queue α)
    (hb : b.WF) (hq : b.lookupNS ns = some q) :
    ((((b.FlushCompleteBatchesCtx sender).2.1).filter
        fun d => d.1 == ns).map Prod.snd).map List.length =
      List.replicate (q.count / maxBatchSize) maxBatchSize ∧
    (b.FlushCompleteBatchesCtx sender).1.lookupNS ns =
      some ((q.drainFull).2) ∧
    ((q.drainFull).2).count = q.count % maxBatchSize ∧
    ((q.drainFull).2).toList =
      q.toList.drop (maxBatchSize * (q.count / maxBatchSize)) ∧
    ((b.FlushCompleteBatchesCtx sender).1.metricQs.map Prod.fst) =
      b.metricQs.map Prod.fst := by
  have hqwf := Batch.wf_of_lookup hb hq
  obtain ⟨hflat, hsizes, hdrop, hcnt, hwf2⟩ := Queue.drainFull_spec q hqwf
  have hd : (b.FlushCompleteBatchesCtx sender).2.1 = b.completeDispatches :=
    rfl
  have hfil2 : (((b.completeDispatches).filter fun d => d.1 == ns).map
      Prod.snd) = (q.drainFull).1 := by
    rw [Batch.completeDispatches_filter b hb ns, hq]
  have hres : (b.FlushCompleteBatchesCtx sender).1 =
      Batch.mk (b.metricQs.map fun p => (p.1, (p.2.drainFull).2)) := rfl
  have hkeys : ∀ (l : List (String × Queue α)),
      ((l.map fun p => (p.1, (p.2.drainFull).2)).map Prod.fst) =
        l.map Prod.fst := by
    intro l
    induction l with
    | nil => rfl
    | cons p l ih => simp only [List.map_cons, ih]
  refine ⟨?_, ?_, hcnt, hdrop, ?_⟩
  · rw [hd, hfil2, hsizes]
  · rw [hres, Batch.lookupNS_mapDrainFull, hq]
    rfl
  · rw [hres]
    exact hkeys b.metricQs

/-- C5 witness: the 25-item group yields one complete sub-batch of 20 and
keeps 5 items queued under the still-present key "A". -/
theorem C5_witness :
    (sampleBatch.WF ∧ sampleBatch.lookupNS "A" = some sampleQueue) ∧
      ((((sampleBatch.FlushCompleteBatchesCtx trivSender).2.1).filter
          fun d => d.1 == "A").map Prod.snd).map List.length =
        List.replicate (sampleQueue.count / maxBatchSize) maxBatchSize ∧
      (sampleBatch.FlushCompleteBatchesCtx trivSender).1.lookupNS "A" =
        some ((sampleQueue.drainFull).2) ∧
      ((sampleQueue.drainFull).2).count = sampleQueue.count % maxBatchSize ∧
      ((sampleQueue.drainFull).2).toList =
        sampleQueue.toList.drop
          (maxBatchSize * (sampleQueue.count / maxBatchSize)) ∧
      ((sampleBatch.FlushCompleteBatchesCtx trivSender).1.metricQs.map
          Prod.fst) = sampleBatch.metricQs.map Prod.fst :=
  ⟨⟨by decide, by decide⟩,
   C5_flush_if_filled sampleBatch trivSender "A" sampleQueue
     (by decide) (by decide)⟩

/-- C6: FlushCtx replaces the table with a fresh empty one before any
send is issued (the returned batch state is the empty table, independent
of the send outcomes), and items added after this snapshot land in the
new table, untouched by the ongoing drain: a later flush dispatches
exactly them, so they were not part of the first flush's dispatches. -/
theorem C6_snapshot_frame {α E : Type} (b : Batch α)
    (sender sender' : String → List (Option α) → Send E)
    (inputs : List (PutMetricDataInput α)) (ns : String) :
    (b.FlushCtx sender).1 = Batch.New ∧
    (((((((b.FlushCtx sender).1).AddInputs inputs).FlushCtx sender').2.1).filter
        fun d => d.1 == ns).map Prod.snd).flatten = itemsFor ns inputs :=
  ⟨rfl, flush_concat_eq_itemsFor inputs sender' ns⟩

/-- C7: push, pop and top preserve the queue invariant
`0 ≤ count ≤ capacity` (and full well-formedness); a push on a full queue
(`count = capacity`) grows the backing storage by the item cap (20) and
preserves the logical FIFO content, appending the new element — nothing
is dropped or overwritten. -/
theorem C7_queue_ops_invariant {α : Type} (q : Queue α) (x : Option α)
    (n : Nat) (hq : q.WF) :
    ((q.push x).WF ∧ (q.push x).count ≤ (q.push x).nodes.length) ∧
    ((q.pop).2.WF ∧ (q.pop).2.count ≤ (q.pop).2.nodes.length) ∧
    ((q.top n).2.WF ∧ (q.top n).2.count ≤ (q.top n).2.nodes.length) ∧
    (q.count = q.nodes.length →
      (q.push x).nodes.length = q.nodes.length + maxBatchSize ∧
      (q.push x).toList = q.toList ++ [x]) := by
  obtain ⟨hpwf, hptl, -, hgrow, -⟩ := Queue.push_spec q x hq
  have hpop : (q.pop).2.WF := by
    by_cases h0 : q.count = 0
    · unfold Queue.pop
      rw [if_pos h0]
      exact hq
    · exact (Queue.pop_spec q hq (by omega)).2
  have htop : (q.top n).2.WF := (Queue.top_spec q n hq).2.2
  refine ⟨⟨hpwf, hpwf.count_le⟩, ⟨hpop, hpop.count_le⟩,
    ⟨htop, htop.count_le⟩, fun hfull => ⟨?_, hptl⟩⟩
  rw [hgrow hfull, hq.size_eq]

/-- C7 witness: a queue filled to its capacity of 20; pushing one more
element grows the storage to 40 slots and appends the element. -/
theorem C7_witness :
    fullQueue.WF ∧
      ((fullQueue.push (some 7)).WF ∧
        (fullQueue.push (some 7)).count ≤
          (fullQueue.push (some 7)).nodes.length) ∧
      ((fullQueue.pop).2.WF ∧
        (fullQueue.pop).2.count ≤ (fullQueue.pop).2.nodes.length) ∧
      ((fullQueue.top 5).2.WF ∧
        (fullQueue.top 5).2.count ≤ (fullQueue.top 5).2.nodes.length) ∧
      (fullQueue.count = fullQueue.nodes.length →
        (fullQueue.push (some 7)).nodes.length =
          fullQueue.nodes.length + maxBatchSize ∧
        (fullQueue.push (some 7)).toList = fullQueue.toList ++ [some 7]) :=
  ⟨by decide, C7_queue_ops_invariant fullQueue (some 7) 5 (by decide)⟩

/-- C8: in the select-loop embedding of the auto-flush scheduler
(NewTicker, called by LaunchAutoFlush), once the done event of the
cancellation context is observed the loop returns: events after it are
never consumed and the callback is never invoked again; the callback runs
exactly once per timer event before the cancellation, and those runs are
sequentially composed (each returns before the next timer is armed), so
two flushes from the same scheduler never overlap. -/
theorem C8_ticker_cancellation {σ : Type} (fn : σ → σ)
    (es1 es2 : List TickEvent) (s : σ) (h : TickEvent.done ∉ es1) :
    NewTickerRun fn (es1 ++ TickEvent.done :: es2) s =
      (fn^[es1.length] s, es1.length) := by
  revert h
  induction es1 generalizing s with
  | nil => intro h; rfl
  | cons e es1 ih =>
    intro h
    match e with
    | TickEvent.tick =>
      have hnot : TickEvent.done ∉ es1 :=
        fun hc => h (List.mem_cons_of_mem _ hc)
      simp only [List.cons_append, NewTickerRun, List.append_eq,
        ih (fn s) hnot, List.length_cons, Function.iterate_succ_apply]
    | TickEvent.done =>
      exact absurd (List.mem_cons_self _ _) h

/-- C8 witness: two timer events, then cancellation, then a further timer
event that is never processed: the callback ran exactly twice. -/
theorem C8_witness :
    TickEvent.done ∉ [TickEvent.tick, TickEvent.tick] ∧
      NewTickerRun Nat.succ
        ([TickEvent.tick, TickEvent.tick] ++
          TickEvent.done :: [TickEvent.tick]) 0 = (Nat.succ^[2] 0, 2) :=
  ⟨by decide, C8_ticker_cancellation Nat.succ
    [TickEvent.tick, TickEvent.tick] [TickEvent.tick] 0 (by decide)⟩

/-- C9: Batch.PutMetricData returns the (non-nil) empty
PutMetricDataOutput value and a nil error, performs no send, and its
effect on the group table is exactly AddInputs with that single input,
which in turn is exactly one add of the input. -/
theorem C9_putmetricdata {α E : Type} (b : Batch α)
    (input : PutMetricDataInput α) :
    (b.PutMetricData input : Batch α × PutMetricDataOutput × Option E) =
      (b.add input, PutMetricDataOutput.mk, none) ∧
    b.AddInputs [input] = b.add input :=
  ⟨rfl, rfl⟩

/-- C10: when a non-nil onError handler is given to LaunchAutoFlush, each
tick invokes it exactly once with the flush's result — also when that
result is nil (a successful flush); the handler is not restricted to
failing flushes. -/
theorem C10_onerror_always {α E : Type} (b : Batch α)
    (sender : String → List (Option α) → Send E) :
    (b.LaunchAutoFlushTick sender true).2 = [(b.FlushCtx sender).2.2] ∧
    ((b.FlushCtx sender).2.2 = none →
      (b.LaunchAutoFlushTick sender true).2 = [none]) := by
  refine ⟨rfl, fun h => ?_⟩
  rw [show (b.LaunchAutoFlushTick sender true).2 =
    [(b.FlushCtx sender).2.2] from rfl, h]

/-- C10 witness: a successful flush (empty batch, trivially succeeding
sender) still invokes the handler, with nil. -/
theorem C10_witness :
    ((Batch.New : Batch Nat).FlushCtx trivSender).2.2 = none ∧
      ((Batch.New : Batch Nat).LaunchAutoFlushTick trivSender true).2 =
        [none] :=
  ⟨by decide, (C10_onerror_always Batch.New trivSender).2 (by decide)⟩

end Cwatsch
